import Mathlib

/-!
Shallow embedding of `run_notebooks.py`: a batch runner that discovers
notebooks via `glob('*/*.ipynb')`, executes each one through nbconvert's
`ExecutePreprocessor`, and reports aggregate success via the process exit
status.

External library calls (`open`/`nbformat.read`, `ep.preprocess`, `print`,
`nbformat.write`) are modelled by an abstract per-document behaviour
(`DocBehavior`) together with an effect log (`Effects`).
-/

namespace RunNotebooks

/-- Paths and printed text are modelled as lists of characters. -/
abbrev Path := List Char

/-- Shorthand turning a string literal into a `Path`. -/
def strL (s : String) : Path := s.toList

/-- The pattern `'.ipynb'` of the `str.replace` call on line 10. -/
def ipynbExt : Path := strL ".ipynb"

/-- The replacement `'.nbconvert.ipynb'` of the `str.replace` call on line 10. -/
def nbconvertExt : Path := strL ".nbconvert.ipynb"

/-- Python `str.replace(pat, rep)` for a nonempty `pat`: every
non-overlapping occurrence of `pat` is replaced, scanning left to right.
The `Nat` argument counts characters of an already matched occurrence that
remain to be skipped; scanning resumes after them. -/
def replaceGo (pat rep : Path) : Nat → Path → Path
  | _, [] => []
  | n + 1, _ :: rest => replaceGo pat rep n rest
  | 0, c :: rest =>
    if pat.isPrefixOf (c :: rest) && !pat.isEmpty then
      rep ++ replaceGo pat rep (pat.length - 1) rest
    else
      c :: replaceGo pat rep 0 rest

/-- Python `s.replace(pat, rep)`, for the nonempty pattern the source
uses. -/
def replaceAll (pat rep s : Path) : Path := replaceGo pat rep 0 s

/-- Line 10: `nb_out_fn = nb_in_fn.replace('.ipynb', '.nbconvert.ipynb')`. -/
def nb_out_fn (nb_in_fn : Path) : Path := replaceAll ipynbExt nbconvertExt nb_in_fn

/-- Whether `pat` occurs as a contiguous substring of `s`. -/
def occursIn (pat : Path) : Path → Bool
  | [] => pat.isPrefixOf []
  | c :: rest => pat.isPrefixOf (c :: rest) || occursIn pat rest

/-- Outcome of loading the input file (`open` plus `nbformat.read`,
lines 12-13): either a notebook is returned, or an exception is raised
(missing file, malformed document); such an exception is caught nowhere. -/
inductive LoadOutcome where
  | ok
  | loadError
deriving DecidableEq

/-- Outcome of `ep.preprocess` (line 19): normal completion, a
`CellExecutionError` carrying a traceback, or any other exception
(engine internal error, timeout, ...). -/
inductive RunOutcome where
  | ok
  | cellError (tb : Path)
  | otherError
deriving DecidableEq

/-- Abstract behaviour of the external libraries on one document. -/
structure DocBehavior where
  load : LoadOutcome
  run : RunOutcome
deriving DecidableEq

/-- Result of running a piece of Python code: a normal return, or an
uncaught exception propagating outwards. -/
inductive PyResult (α : Type) where
  | ret (a : α)
  | raised
deriving DecidableEq

/-- Observable effects: output paths written by `nbformat.write` and lines
printed to standard output. -/
structure Effects where
  writes : List Path
  stdout : List Path
deriving DecidableEq

/-- The first line printed on a cell failure, line 22: the text
`Error executing the notebook "` followed by the input path, followed by
`". Traceback:`. -/
def tracebackHeader (nb_in_fn : Path) : Path :=
  strL "Error executing the notebook \"" ++ nb_in_fn ++ strL "\". Traceback:"

/-- Lines 9-29, `execute(nb_in_fn, kernel_name='python3', run_path='.')`.
The arguments `kernel_name` and `run_path` only configure the external
engine, whose behaviour is abstracted by `beh`.  The `finally` block
(lines 25-27) writes the output file on every exit path reached after a
successful load — also when `ep.preprocess` raises an exception other than
`CellExecutionError`, in which case the exception then propagates. -/
def execute (beh : DocBehavior) (nb_in_fn kernel_name run_path : Path) :
    Effects × PyResult Bool :=
  match beh.load with
  | .loadError => (⟨[], []⟩, .raised)
  | .ok =>
    match beh.run with
    | .ok => (⟨[nb_out_fn nb_in_fn], []⟩, .ret true)
    | .cellError tb =>
        (⟨[nb_out_fn nb_in_fn], [tracebackHeader nb_in_fn, tb]⟩, .ret false)
    | .otherError => (⟨[nb_out_fn nb_in_fn], []⟩, .raised)

/-- Matching of a relative path against the pattern `*/*.ipynb` of the
`glob` call on line 39: one directory level below the current directory,
where each `*` matches a nonempty entry name without `/` and — by glob's
hidden-file rule — not starting with `.`; the file part ends in `.ipynb`. -/
def globMatch (p : Path) : Bool :=
  match p.splitOn '/' with
  | [d, base] =>
    !d.isEmpty && d.head? != some '.' && base.head? != some '.' &&
      ipynbExt.isSuffixOf base
  | _ => false

/-- Lines 39-40: `nbfns = glob('*/*.ipynb')` filtered by
`not fn.endswith('.nbconvert.ipynb')`, over a filesystem modelled as the
list `fs` of existing relative paths. -/
def nbfns (fs : List Path) : List Path :=
  (fs.filter globMatch).filter fun fn => !nbconvertExt.isSuffixOf fn

/-- Index one past the last `'/'` of `p`, or `0` when `p` has none
(`p.rfind('/') + 1` inside `posixpath.split`). -/
def lastSlashEnd : Path → Nat
  | [] => 0
  | c :: rest =>
    let r := lastSlashEnd rest
    if r = 0 ∧ c ≠ '/' then 0 else r + 1

/-- Strip trailing `'/'` characters (`head.rstrip('/')`). -/
def rstripSlash (l : Path) : Path := (l.reverse.dropWhile (· == '/')).reverse

/-- `posixpath.split`: split at the final slash; trailing slashes are
stripped from the head unless it consists only of slashes (stripping an
empty head is also the identity, so the emptiness test is folded into the
all-slashes test). -/
def os_path_split (p : Path) : Path × Path :=
  let i := lastSlashEnd p
  let head := p.take i
  let tail := p.drop i
  if head.all (· == '/') then (head, tail) else (rstripSlash head, tail)

/-- `posixpath.join` restricted to two arguments, as called by the source. -/
def os_path_join (a b : Path) : Path :=
  if b.head? = some '/' then b
  else if a.isEmpty || a.getLast? == some '/' then a ++ b
  else a ++ '/' :: b

/-- One step of the component loop of `posixpath.normpath`. -/
def normComp (slashes : Nat) (acc : List Path) (comp : Path) : List Path :=
  if comp = [] ∨ comp = ['.'] then acc
  else if comp ≠ ['.', '.'] ∨ (slashes = 0 ∧ acc = []) ∨
      acc.getLast? = some ['.', '.'] then
    acc ++ [comp]
  else if acc ≠ [] then acc.dropLast
  else acc

/-- `posixpath.normpath`. -/
def normpath (p : Path) : Path :=
  if p = [] then ['.']
  else
    let slashes : Nat :=
      if p.head? = some '/' then
        if p.take 2 = ['/', '/'] ∧ p.take 3 ≠ ['/', '/', '/'] then 2 else 1
      else 0
    let newComps := (p.splitOn '/').foldl (normComp slashes) []
    let out := List.replicate slashes '/' ++ List.intercalate ['/'] newComps
    if out = [] then ['.'] else out

/-- `posixpath.abspath` relative to the working directory `cwd` (assumed
absolute, as `os.getcwd()` returns). -/
def os_path_abspath (cwd p : Path) : Path :=
  if p.head? = some '/' then normpath p else normpath (os_path_join cwd p)

/-- Line 46:
`nb_dir = os.path.abspath(os.path.join('.', os.path.split(nbfn)[0]))`. -/
def nb_dir (cwd nbfn : Path) : Path :=
  os_path_abspath cwd (os_path_join (strL ".") (os_path_split nbfn).1)

/-- Line 36: `kernel_name = 'python3'`. -/
def kernelNameDefault : Path := strL "python3"

/-- Result of the driver loop: accumulated effects, the trace of `execute`
calls actually made — each paired with `some` returned boolean, or `none`
when the call raised — and the final value of `succeeded` (or an uncaught
exception). -/
structure LoopOut where
  eff : Effects
  calls : List (Path × Option Bool)
  res : PyResult Bool
deriving DecidableEq

/-- Concatenation of effect logs. -/
def appendEff (e1 e2 : Effects) : Effects :=
  ⟨e1.writes ++ e2.writes, e1.stdout ++ e2.stdout⟩

/-- Lines 44-47.  Note `succeeded = succeeded and execute(...)`: Python's
`and` evaluates its right operand only when the left one is truthy, so
once `succeeded` is `False` the loop no longer invokes `execute` at all
(`nb_dir` is still computed, an effect-free expression). -/
def driverLoop (behOf : Path → DocBehavior) (cwd : Path) (succeeded : Bool) :
    List Path → LoopOut
  | [] => ⟨⟨[], []⟩, [], .ret succeeded⟩
  | nbfn :: rest =>
    if succeeded then
      match execute (behOf nbfn) nbfn kernelNameDefault (nb_dir cwd nbfn) with
      | (e, .raised) => ⟨e, [(nbfn, none)], .raised⟩
      | (e, .ret b) =>
        let o := driverLoop behOf cwd b rest
        ⟨appendEff e o.eff, (nbfn, some b) :: o.calls, o.res⟩
    else
      driverLoop behOf cwd succeeded rest

/-- Lines 39-52: discovery followed by the loop, from `succeeded = True`. -/
def driverRun (fs : List Path) (behOf : Path → DocBehavior) (cwd : Path) :
    LoopOut :=
  driverLoop behOf cwd true (nbfns fs)

/-- Process exit status: lines 49-52 call `sys.exit(1)` or `sys.exit(0)`;
an uncaught exception makes CPython exit with status 1. -/
def exitStatus : PyResult Bool → Nat
  | .ret true => 0
  | .ret false => 1
  | .raised => 1

/-- The output path as the C3 claim words it: the input with only the
trailing `.ipynb` replaced by `.nbconvert.ipynb`, earlier occurrences left
unchanged (meaningful when the input ends in `.ipynb`). -/
def nb_out_fn_claimed (p : Path) : Path :=
  p.take (p.length - ipynbExt.length) ++ nbconvertExt

/-- An absolute, normalised working directory given by its path
components, `/c1/c2/...`; the empty list denotes the filesystem root. -/
def cwdOfComps (cs : List Path) : Path := '/' :: List.intercalate ['/'] cs

/-- A string in which the pattern does not occur is left unchanged by
`replaceGo`. -/
theorem replaceGo_of_not_occurs (pat rep : Path) :
    ∀ s : Path, occursIn pat s = false → replaceGo pat rep 0 s = s := by
  intro s
  induction s with
  | nil => intro _; rfl
  | cons c rest ih =>
    intro h
    simp only [occursIn, Bool.or_eq_false_iff] at h
    simp only [replaceGo, h.1, Bool.false_and, if_neg Bool.false_ne_true]
    exact congrArg (c :: ·) (ih h.2)

/-- C9: for every input path that does not contain the substring `.ipynb`
at all, the output path computed by `execute` equals the input path itself,
so a run (here: a successful one, but the output path does not depend on
the outcome) overwrites the input file in place. -/
theorem C9_output_overwrites_input (p : Path)
    (h : occursIn ipynbExt p = false) :
    nb_out_fn p = p ∧
    (∀ (beh : DocBehavior) (k rp : Path), beh.load = LoadOutcome.ok →
      (execute beh p k rp).1.writes = [p]) := by
  have h1 : nb_out_fn p = p := replaceGo_of_not_occurs ipynbExt nbconvertExt p h
  refine ⟨h1, ?_⟩
  intro beh k rp hl
  rcases beh with ⟨l, r⟩
  cases l with
  | ok => cases r <;> simp [execute, h1]
  | loadError => exact absurd hl (by simp)

/-- C9 witness: a concrete path without `.ipynb` is written back onto
itself. -/
theorem C9_witness :
    occursIn ipynbExt (strL "a/notes.txt") = false ∧
    nb_out_fn (strL "a/notes.txt") = strL "a/notes.txt" ∧
    (execute ⟨LoadOutcome.ok, RunOutcome.ok⟩ (strL "a/notes.txt")
        kernelNameDefault (strL "/home")).1.writes = [strL "a/notes.txt"] :=
  ⟨by decide, (C9_output_overwrites_input _ (by decide)).1,
    (C9_output_overwrites_input _ (by decide)).2 _ _ _ rfl⟩

/-- C3 counterexample: on `nb/x.ipynb.ipynb` — a path ending in `.ipynb`
with an earlier occurrence of `.ipynb` — the code replaces both
occurrences, not only the trailing one as the claim states. -/
theorem C3_counterexample :
    ipynbExt.isSuffixOf (strL "nb/x.ipynb.ipynb") = true ∧
    nb_out_fn (strL "nb/x.ipynb.ipynb") =
      strL "nb/x.nbconvert.ipynb.nbconvert.ipynb" ∧
    nb_out_fn_claimed (strL "nb/x.ipynb.ipynb") =
      strL "nb/x.ipynb.nbconvert.ipynb" ∧
    nb_out_fn (strL "nb/x.ipynb.ipynb") ≠
      nb_out_fn_claimed (strL "nb/x.ipynb.ipynb") :=
  ⟨by decide, by decide, by decide, by decide⟩

/-- C3 (amended): `str.replace` replaces every non-overlapping occurrence
of `.ipynb`; consequently, for an input path that ends in `.ipynb` and in
which `.ipynb` occurs nowhere before the trailing position, the output
path is the input with the trailing `.ipynb` replaced by
`.nbconvert.ipynb`. -/
theorem C3_trailing_replace_when_unique (a : Path)
    (h : ∀ i, i < a.length →
      ipynbExt.isPrefixOf ((a ++ ipynbExt).drop i) = false) :
    nb_out_fn (a ++ ipynbExt) = a ++ nbconvertExt := by
  induction a with
  | nil => decide
  | cons c a' ih =>
    have h0 : ipynbExt.isPrefixOf (c :: (a' ++ ipynbExt)) = false := by
      have := h 0 (by simp)
      simpa using this
    show replaceGo ipynbExt nbconvertExt 0 (c :: (a' ++ ipynbExt)) = _
    simp only [replaceGo, h0, Bool.false_and, if_neg Bool.false_ne_true]
    refine congrArg (c :: ·) (ih ?_)
    intro i hi
    have := h (i + 1) (by simpa using Nat.succ_lt_succ hi)
    simpa using this

/-- C3 witness: a typical notebook path contains `.ipynb` only at the
end, and there the trailing extension is indeed what gets replaced. -/
theorem C3_witness :
    (∀ i, i < (strL "nb/x").length →
      ipynbExt.isPrefixOf (((strL "nb/x") ++ ipynbExt).drop i) = false) ∧
    nb_out_fn (strL "nb/x" ++ ipynbExt) = strL "nb/x" ++ nbconvertExt :=
  ⟨by decide, C3_trailing_replace_when_unique _ (by decide)⟩

/-- C4: when the engine raises its cell-execution error, `execute` catches
it, returns `false`, prints a line containing the input path followed by
the error's traceback, and still writes the document to the output path. -/
theorem C4_cell_error_caught (fn tb k rp : Path) :
    (execute ⟨LoadOutcome.ok, RunOutcome.cellError tb⟩ fn k rp).2 =
      PyResult.ret false ∧
    (execute ⟨LoadOutcome.ok, RunOutcome.cellError tb⟩ fn k rp).1.writes =
      [nb_out_fn fn] ∧
    (execute ⟨LoadOutcome.ok, RunOutcome.cellError tb⟩ fn k rp).1.stdout =
      [strL "Error executing the notebook \"" ++ fn ++ strL "\". Traceback:",
        tb] :=
  ⟨rfl, rfl, rfl⟩

/-- C5: once the document is successfully loaded, the output file is
written on every exit path — whether execution succeeds, raises the
cell-execution error, or raises any other exception (in which case the
write is logged even though the overall result is `raised`). -/
theorem C5_always_writes (beh : DocBehavior) (fn k rp : Path)
    (h : beh.load = LoadOutcome.ok) :
    (execute beh fn k rp).1.writes = [nb_out_fn fn] := by
  rcases beh with ⟨l, r⟩
  cases l with
  | ok => cases r <;> rfl
  | loadError => exact absurd h (by simp)

/-- C5 witness: with an exception other than the cell-execution error, the
output file is still written before the exception propagates. -/
theorem C5_witness :
    (⟨LoadOutcome.ok, RunOutcome.otherError⟩ : DocBehavior).load =
      LoadOutcome.ok ∧
    (execute ⟨LoadOutcome.ok, RunOutcome.otherError⟩ (strL "a/x.ipynb")
        kernelNameDefault (strL "/home")).1.writes =
      [nb_out_fn (strL "a/x.ipynb")] ∧
    (execute ⟨LoadOutcome.ok, RunOutcome.otherError⟩ (strL "a/x.ipynb")
        kernelNameDefault (strL "/home")).2 = PyResult.raised :=
  ⟨rfl, C5_always_writes _ _ _ _ rfl, rfl⟩

/-- C6: whenever `execute` returns a boolean (rather than propagating an
exception), that boolean is `true` exactly when no cell-execution error
was raised while executing the document. -/
theorem C6_returns_true_iff_no_cell_error (beh : DocBehavior)
    (fn k rp : Path) (b : Bool)
    (h : (execute beh fn k rp).2 = PyResult.ret b) :
    b = true ↔ ∀ tb, beh.run ≠ RunOutcome.cellError tb := by
  rcases beh with ⟨l, r⟩
  cases l with
  | ok =>
    cases r with
    | ok =>
      simp only [execute] at h
      cases h
      simp
    | cellError tb =>
      simp only [execute] at h
      cases h
      constructor
      · intro hb; exact absurd hb (by simp)
      · intro hb; exact absurd rfl (hb tb)
    | otherError => simp [execute] at h
  | loadError => simp [execute] at h

/-- C6 witness: a document whose cells all succeed yields `true`. -/
theorem C6_witness :
    (execute ⟨LoadOutcome.ok, RunOutcome.ok⟩ (strL "a/x.ipynb")
        kernelNameDefault (strL "/home")).2 = PyResult.ret true ∧
    (true = true ↔
      ∀ tb, (⟨LoadOutcome.ok, RunOutcome.ok⟩ : DocBehavior).run ≠
        RunOutcome.cellError tb) :=
  ⟨rfl, C6_returns_true_iff_no_cell_error ⟨LoadOutcome.ok, RunOutcome.ok⟩
    (strL "a/x.ipynb") kernelNameDefault (strL "/home") true rfl⟩

/-- Once `succeeded` is `False`, the loop makes no further call, produces
no further effect, and ends with `succeeded` still `False`. -/
theorem driverLoop_not_succeeded (behOf : Path → DocBehavior) (cwd : Path) :
    ∀ l : List Path,
      driverLoop behOf cwd false l = ⟨⟨[], []⟩, [], PyResult.ret false⟩ := by
  intro l
  induction l with
  | nil => rfl
  | cons x xs ih => simpa [driverLoop] using ih

/-- The loop's final `succeeded` is `True` exactly when every call it made
returned `true`; and if some call returned `false`, the loop ends with
`succeeded = False` (not an exception). -/
theorem driverLoop_status (behOf : Path → DocBehavior) (cwd : Path) :
    ∀ l : List Path,
      ((driverLoop behOf cwd true l).res = PyResult.ret true ↔
        ∀ c ∈ (driverLoop behOf cwd true l).calls, c.2 = some true) ∧
      ((∃ c ∈ (driverLoop behOf cwd true l).calls, c.2 = some false) →
        (driverLoop behOf cwd true l).res = PyResult.ret false) := by
  intro l
  induction l with
  | nil => simp [driverLoop]
  | cons x xs ih =>
    rcases hx : execute (behOf x) x kernelNameDefault (nb_dir cwd x) with ⟨e, r⟩
    cases r with
    | raised => simp [driverLoop, hx]
    | ret b =>
      cases b with
      | false => simp [driverLoop, hx, driverLoop_not_succeeded]
      | true =>
        simp only [driverLoop, hx, if_true]
        constructor
        · simpa using ih.1
        · intro hex
          simp only [List.mem_cons] at hex
          rcases hex with ⟨c, hc | hc, hc2⟩
          · rw [hc] at hc2; exact absurd hc2 (by simp)
          · exact ih.2 ⟨c, hc, hc2⟩

/-- C2: the process exit code is `0` iff every `execute` call the driver
made returned `true`, and it is `1` whenever some call returned `false`.
(Calls skipped by the short-circuit of line 47 were never made and so do
not appear in the call trace.) -/
theorem C2_exit_code (fs : List Path) (behOf : Path → DocBehavior)
    (cwd : Path) :
    (exitStatus (driverRun fs behOf cwd).res = 0 ↔
      ∀ c ∈ (driverRun fs behOf cwd).calls, c.2 = some true) ∧
    ((∃ c ∈ (driverRun fs behOf cwd).calls, c.2 = some false) →
      exitStatus (driverRun fs behOf cwd).res = 1) := by
  have h := driverLoop_status behOf cwd (nbfns fs)
  have hz : ∀ r : PyResult Bool, exitStatus r = 0 ↔ r = PyResult.ret true := by
    intro r
    rcases r with b | _
    · cases b <;> simp [exitStatus]
    · simp [exitStatus]
  constructor
  · rw [driverRun, hz]; exact h.1
  · intro hex
    have := h.2 hex
    simp [driverRun, this, exitStatus]

/-- C2 witness: a batch whose only notebook fails on a cell error exits
with status 1. -/
theorem C2_witness :
    (∃ c ∈ (driverRun [strL "a/x.ipynb"]
        (fun _ => ⟨LoadOutcome.ok, RunOutcome.cellError (strL "boom")⟩)
        (strL "/home")).calls, c.2 = some false) ∧
    exitStatus (driverRun [strL "a/x.ipynb"]
        (fun _ => ⟨LoadOutcome.ok, RunOutcome.cellError (strL "boom")⟩)
        (strL "/home")).res = 1 :=
  ⟨by decide, (C2_exit_code [strL "a/x.ipynb"]
    (fun _ => ⟨LoadOutcome.ok, RunOutcome.cellError (strL "boom")⟩)
    (strL "/home")).2 (by decide)⟩

/-- C1 (refuted, code bug): with two discovered notebooks of which the
first fails on a cell error and the second would execute fine, the driver
invokes `execute` only on the first one — `succeeded and execute(...)` on
line 47 short-circuits once `succeeded` is `False` — so the second
notebook is neither executed nor written, contradicting the claim that a
per-document failure does not abort the batch. -/
theorem C1_short_circuit_skips_remaining :
    (driverRun [strL "a/x.ipynb", strL "b/y.ipynb"]
        (fun p => if p = strL "a/x.ipynb" then
            ⟨LoadOutcome.ok, RunOutcome.cellError (strL "ZeroDivisionError")⟩
          else ⟨LoadOutcome.ok, RunOutcome.ok⟩)
        (strL "/home")).calls = [(strL "a/x.ipynb", some false)] ∧
    (driverRun [strL "a/x.ipynb", strL "b/y.ipynb"]
        (fun p => if p = strL "a/x.ipynb" then
            ⟨LoadOutcome.ok, RunOutcome.cellError (strL "ZeroDivisionError")⟩
          else ⟨LoadOutcome.ok, RunOutcome.ok⟩)
        (strL "/home")).eff.writes = [strL "a/x.nbconvert.ipynb"] ∧
    strL "b/y.nbconvert.ipynb" ∉
      (driverRun [strL "a/x.ipynb", strL "b/y.ipynb"]
        (fun p => if p = strL "a/x.ipynb" then
            ⟨LoadOutcome.ok, RunOutcome.cellError (strL "ZeroDivisionError")⟩
          else ⟨LoadOutcome.ok, RunOutcome.ok⟩)
        (strL "/home")).eff.writes :=
  ⟨by decide, by decide, by decide⟩

/-- A run of leading documents whose calls all return `true` leaves the
loop's final result unchanged. -/
theorem driverLoop_append_ok (behOf : Path → DocBehavior) (cwd : Path) :
    ∀ pre rest : List Path,
      (∀ p ∈ pre,
        (execute (behOf p) p kernelNameDefault (nb_dir cwd p)).2 =
          PyResult.ret true) →
      (driverLoop behOf cwd true (pre ++ rest)).res =
        (driverLoop behOf cwd true rest).res := by
  intro pre
  induction pre with
  | nil => intro rest _; rfl
  | cons p pre' ih =>
    intro rest h
    have hp := h p (by simp)
    rcases hx : execute (behOf p) p kernelNameDefault (nb_dir cwd p)
      with ⟨e, r⟩
    rw [hx] at hp
    cases hp
    simp only [List.cons_append, driverLoop, hx, if_true]
    exact ih rest fun q hq => h q (by simp [hq])

/-- C7: the cell-execution error is the only exception kind caught
anywhere.  First part: `execute` propagates an exception exactly when the
load step raised or the engine raised something other than the
cell-execution error (which it catches).  Second part: when the driver
reaches such a document — every earlier call returned `true` — the
exception propagates out of the loop uncaught and the process terminates
with a non-zero status. -/
theorem C7_only_cell_error_caught :
    (∀ (beh : DocBehavior) (fn k rp : Path),
      (execute beh fn k rp).2 = PyResult.raised ↔
        (beh.load = LoadOutcome.loadError ∨
          beh.run = RunOutcome.otherError)) ∧
    (∀ (fs : List Path) (behOf : Path → DocBehavior) (cwd : Path)
        (pre : List Path) (d : Path) (post : List Path),
      nbfns fs = pre ++ d :: post →
      (∀ p ∈ pre,
        (execute (behOf p) p kernelNameDefault (nb_dir cwd p)).2 =
          PyResult.ret true) →
      (execute (behOf d) d kernelNameDefault (nb_dir cwd d)).2 =
        PyResult.raised →
      (driverRun fs behOf cwd).res = PyResult.raised ∧
        exitStatus (driverRun fs behOf cwd).res ≠ 0) := by
  constructor
  · intro beh fn k rp
    rcases beh with ⟨l, r⟩
    cases l <;> cases r <;> simp [execute]
  · intro fs behOf cwd pre d post hsplit hpre hd
    have hres : (driverRun fs behOf cwd).res = PyResult.raised := by
      rw [driverRun, hsplit, driverLoop_append_ok behOf cwd pre (d :: post) hpre]
      rcases hx : execute (behOf d) d kernelNameDefault (nb_dir cwd d)
        with ⟨e, r⟩
      rw [hx] at hd
      cases hd
      simp [driverLoop, hx]
    exact ⟨hres, by simp [hres, exitStatus]⟩

/-- C7 witness: a single notebook whose execution raises an engine
exception other than the cell-execution error crashes the whole batch. -/
theorem C7_witness :
    nbfns [strL "a/x.ipynb"] = [] ++ strL "a/x.ipynb" :: [] ∧
    (execute ((fun _ => (⟨LoadOutcome.ok, RunOutcome.otherError⟩ :
        DocBehavior)) (strL "a/x.ipynb")) (strL "a/x.ipynb")
        kernelNameDefault (nb_dir (strL "/home") (strL "a/x.ipynb"))).2 =
      PyResult.raised ∧
    ((driverRun [strL "a/x.ipynb"]
        (fun _ => ⟨LoadOutcome.ok, RunOutcome.otherError⟩)
        (strL "/home")).res = PyResult.raised ∧
      exitStatus (driverRun [strL "a/x.ipynb"]
        (fun _ => ⟨LoadOutcome.ok, RunOutcome.otherError⟩)
        (strL "/home")).res ≠ 0) :=
  ⟨by decide, by decide,
    C7_only_cell_error_caught.2 [strL "a/x.ipynb"]
      (fun _ => ⟨LoadOutcome.ok, RunOutcome.otherError⟩) (strL "/home")
      [] (strL "a/x.ipynb") [] (by decide) (by simp) (by decide)⟩

/-- C8: discovery selects exactly the existing paths matching the glob
pattern `*/*.ipynb` that do not already end in `.nbconvert.ipynb`; in
particular a path ending in `.nbconvert.ipynb` is never among the inputs
the driver runs. -/
theorem C8_discovery_excludes_outputs :
    (∀ (fs : List Path) (p : Path),
      p ∈ nbfns fs ↔
        p ∈ fs ∧ globMatch p = true ∧ nbconvertExt.isSuffixOf p = false) ∧
    (∀ (fs : List Path) (p : Path),
      nbconvertExt.isSuffixOf p = true → p ∉ nbfns fs) := by
  have h1 : ∀ (fs : List Path) (p : Path),
      p ∈ nbfns fs ↔
        p ∈ fs ∧ globMatch p = true ∧ nbconvertExt.isSuffixOf p = false := by
    intro fs p
    simp only [nbfns, List.mem_filter, Bool.not_eq_true',
      Bool.not_eq_eq_eq_not, Bool.not_true]
    tauto
  refine ⟨h1, ?_⟩
  intro fs p hs hm
  have := ((h1 fs p).1 hm).2.2
  rw [hs] at this
  exact absurd this (by simp)

/-- C8 witness: a `.nbconvert.ipynb` file present on disk is not
selected, while its `.ipynb` sibling is. -/
theorem C8_witness :
    nbconvertExt.isSuffixOf (strL "a/x.nbconvert.ipynb") = true ∧
    strL "a/x.nbconvert.ipynb" ∉
      nbfns [strL "a/x.ipynb", strL "a/x.nbconvert.ipynb"] ∧
    strL "a/x.ipynb" ∈ nbfns [strL "a/x.ipynb", strL "a/x.nbconvert.ipynb"] :=
  ⟨by decide,
    C8_discovery_excludes_outputs.2 [strL "a/x.ipynb", strL "a/x.nbconvert.ipynb"]
      (strL "a/x.nbconvert.ipynb") (by decide),
    by decide⟩

/-- A list without slashes has no final slash. -/
theorem lastSlashEnd_of_no_slash :
    ∀ b : Path, '/' ∉ b → lastSlashEnd b = 0 := by
  intro b
  induction b with
  | nil => intro _; rfl
  | cons c rest ih =>
    intro h
    simp only [List.mem_cons, not_or] at h
    have hc : c ≠ '/' := fun e => h.1 e.symm
    simp [lastSlashEnd, ih h.2, hc]

/-- The final slash of `a ++ '/' :: b` with slash-free `b` sits right
after `a`. -/
theorem lastSlashEnd_append_slash (b : Path) (hb : '/' ∉ b) :
    ∀ a : Path, lastSlashEnd (a ++ '/' :: b) = a.length + 1 := by
  intro a
  induction a with
  | nil => simp [lastSlashEnd, lastSlashEnd_of_no_slash b hb]
  | cons c a' ih => simp [lastSlashEnd, ih]

/-- Stripping trailing slashes from `a ++ ['/']` with slash-free `a`
recovers `a`. -/
theorem rstripSlash_append_slash (a : Path) (ha : '/' ∉ a) :
    rstripSlash (a ++ ['/']) = a := by
  have hdw : a.reverse.dropWhile (· == '/') = a.reverse := by
    cases hr : a.reverse with
    | nil => rfl
    | cons c r =>
      have hc : c ∈ a := by
        have : c ∈ a.reverse := by rw [hr]; simp
        simpa using this
      have : c ≠ '/' := fun e => ha (e ▸ hc)
      simp [List.dropWhile_cons, this]
  simp [rstripSlash, hdw]

/-- `posixpath.split` of a one-level path `dir/file` with slash-free
parts returns the pair `(dir, file)`. -/
theorem os_path_split_dir_file (a b : Path) (ha : a ≠ []) (haS : '/' ∉ a)
    (hb : '/' ∉ b) : os_path_split (a ++ '/' :: b) = (a, b) := by
  obtain ⟨c, a', rfl⟩ := List.exists_cons_of_ne_nil ha
  have hL : lastSlashEnd ((c :: a') ++ '/' :: b) = (c :: a').length + 1 :=
    lastSlashEnd_append_slash b hb (c :: a')
  have hsplit : (c :: a') ++ '/' :: b = ((c :: a') ++ ['/']) ++ b := by simp
  have htake : ((c :: a') ++ '/' :: b).take ((c :: a').length + 1) =
      (c :: a') ++ ['/'] := by
    rw [hsplit]
    exact List.take_left' (by simp)
  have hdrop : ((c :: a') ++ '/' :: b).drop ((c :: a').length + 1) = b := by
    rw [hsplit]
    exact List.drop_left' (by simp)
  have hc : c ≠ '/' := fun e => haS (by simp [e])
  have hall : ((c :: a') ++ ['/']).all (· == '/') = false := by
    simp [hc]
  rw [os_path_split]
  simp only [hL, htake, hdrop, hall, Bool.false_eq_true, if_false]
  rw [rstripSlash_append_slash _ haS]

/-- `posixpath.join('.', d)` for a nonempty relative `d` prepends `./`. -/
theorem os_path_join_dot_dir (a : Path) (ha : a ≠ []) (haS : '/' ∉ a) :
    os_path_join (strL ".") a = '.' :: '/' :: a := by
  obtain ⟨c, a', rfl⟩ := List.exists_cons_of_ne_nil ha
  have hc : c ≠ '/' := fun e => haS (by simp [e])
  simp [os_path_join, strL, hc]

/-- `intercalate` over a separator unfolds on a cons with nonempty
tail. -/
theorem intercalate_cons_of_ne (c : Path) (L : List Path) (h : L ≠ []) :
    List.intercalate ['/'] (c :: L) = c ++ '/' :: List.intercalate ['/'] L := by
  obtain ⟨d, L', rfl⟩ := List.exists_cons_of_ne_nil h
  simp [List.intercalate]

/-- `intercalate` of a single component. -/
theorem intercalate_single_comp (x : Path) :
    List.intercalate ['/'] [x] = x := by
  simp [List.intercalate]

/-- Appending one component to a nonempty list appends `/component`. -/
theorem intercalate_concat_comp (x : Path) :
    ∀ L : List Path, L ≠ [] →
      List.intercalate ['/'] (L ++ [x]) =
        List.intercalate ['/'] L ++ '/' :: x := by
  intro L
  induction L with
  | nil => intro h; exact absurd rfl h
  | cons c L' ih =>
    intro _
    cases L' with
    | nil => simp [intercalate_single_comp, intercalate_cons_of_ne c [x] (by simp)]
    | cons d L'' =>
      rw [List.cons_append, intercalate_cons_of_ne c _ (by simp),
        intercalate_cons_of_ne c _ (by simp), ih (by simp)]
      simp

/-- `intercalate` of a nonempty list of nonempty components is
nonempty. -/
theorem intercalate_ne_nil (L : List Path) (h : L ≠ [])
    (hc : ∀ c ∈ L, c ≠ []) : List.intercalate ['/'] L ≠ [] := by
  obtain ⟨c, L', rfl⟩ := List.exists_cons_of_ne_nil h
  cases L' with
  | nil => simpa [intercalate_single_comp] using hc c (by simp)
  | cons d L'' =>
    rw [intercalate_cons_of_ne c _ (by simp)]
    simp

/-- The last character of an intercalation of nonempty slash-free
components is not a slash. -/
theorem getLast_intercalate_ne_slash :
    ∀ L : List Path, L ≠ [] → (∀ c ∈ L, c ≠ [] ∧ '/' ∉ c) →
      ∀ x, (List.intercalate ['/'] L).getLast? = some x → x ≠ '/' := by
  intro L
  induction L with
  | nil => intro h; exact absurd rfl h
  | cons c L' ih =>
    intro _ hc x hx
    cases L' with
    | nil =>
      rw [intercalate_single_comp] at hx
      have hm := List.mem_of_getLast?_eq_some hx
      exact fun e => (hc c (by simp)).2 (e ▸ hm)
    | cons d L'' =>
      rw [intercalate_cons_of_ne c _ (by simp)] at hx
      have hI : List.intercalate ['/'] (d :: L'') ≠ [] :=
        intercalate_ne_nil _ (by simp) (fun q hq => (hc q (by simp [hq])).1)
      obtain ⟨ys, y, hy⟩ := (List.eq_nil_or_concat
        (List.intercalate ['/'] (d :: L''))).resolve_left hI
      rw [List.concat_eq_append] at hy
      have hxy : x = y := by
        rw [hy] at hx
        have : c ++ '/' :: (ys ++ [y]) = (c ++ '/' :: ys) ++ [y] := by simp
        rw [this, List.getLast?_concat] at hx
        exact (Option.some.injEq _ _ ▸ hx).symm
      have hYlast : (List.intercalate ['/'] (d :: L'')).getLast? = some y := by
        rw [hy]; exact List.getLast?_concat ys
      exact hxy ▸ ih (by simp) (fun q hq => hc q (by simp [hq])) y hYlast

/-- Joining the working directory with `./dir` yields the slash-joined
component list `cwd-components ++ [., dir]`. -/
theorem join_cwd_dot_dir (cs : List Path) (a : Path)
    (hcs : ∀ c ∈ cs, c ≠ [] ∧ '/' ∉ c) :
    os_path_join (cwdOfComps cs) ('.' :: '/' :: a) =
      '/' :: List.intercalate ['/'] (cs ++ [['.'], a]) := by
  cases cs with
  | nil => simp [os_path_join, cwdOfComps, List.intercalate]
  | cons c cs' =>
    have hI : List.intercalate ['/'] (c :: cs') ≠ [] :=
      intercalate_ne_nil _ (by simp) (fun q hq => (hcs q hq).1)
    obtain ⟨ys, y, hy⟩ :=
      (List.eq_nil_or_concat (List.intercalate ['/'] (c :: cs'))).resolve_left hI
    rw [List.concat_eq_append] at hy
    have hyne : y ≠ '/' :=
      getLast_intercalate_ne_slash (c :: cs') (by simp) hcs y
        (by rw [hy]; exact List.getLast?_concat ys)
    have hlast : (('/' : Char) ::
        List.intercalate ['/'] (c :: cs')).getLast? = some y := by
      rw [hy]
      have hsg : ('/' : Char) :: (ys ++ [y]) = ('/' :: ys) ++ [y] := by simp
      rw [hsg, List.getLast?_concat]
    have hne : (('/' : Char) ::
        List.intercalate ['/'] (c :: cs')).getLast? ≠ some '/' := by
      rw [hlast]; simp [hyne]
    have hjoin : os_path_join (cwdOfComps (c :: cs')) ('.' :: '/' :: a) =
        cwdOfComps (c :: cs') ++ '/' :: '.' :: '/' :: a := by
      rw [os_path_join, if_neg (by simp),
        if_neg (by simp [cwdOfComps, hne])]
    rw [hjoin, cwdOfComps]
    have happ : (c :: cs') ++ [['.'], a] = ((c :: cs') ++ [['.']]) ++ [a] := by
      simp
    rw [happ, intercalate_concat_comp a _ (by simp),
      intercalate_concat_comp ['.'] _ (by simp)]
    simp

/-- The component loop of `normpath` over components none of which is
`..` appends exactly the components that are neither empty nor `.`. -/
theorem foldl_normComp_all (s : Nat) :
    ∀ L acc : List Path, (∀ c ∈ L, c ≠ ['.', '.']) →
      L.foldl (normComp s) acc =
        acc ++ L.filter (fun c => !(c == [] || c == ['.'])) := by
  intro L
  induction L with
  | nil => intro acc _; simp
  | cons c L' ih =>
    intro acc h
    by_cases hc : c = [] ∨ c = ['.']
    · have hskip : normComp s acc c = acc := by simp [normComp, hc]
      rw [List.foldl_cons, hskip,
        List.filter_cons_of_neg (by rcases hc with h1 | h1 <;> simp [h1])]
      exact ih acc (fun q hq => h q (by simp [hq]))
    · push_neg at hc
      have hdd : c ≠ ['.', '.'] := h c (by simp)
      have happ : normComp s acc c = acc ++ [c] := by
        simp [normComp, hc.1, hc.2, hdd]
      rw [List.foldl_cons, happ,
        List.filter_cons_of_pos (by simp [hc.1, hc.2]),
        ih (acc ++ [c]) (fun q hq => h q (by simp [hq]))]
      simp

/-- `normpath` of an absolute slash-joined component list (no slash
inside a component, no `..`, first component nonempty) keeps exactly the
components that are neither empty nor `.`. -/
theorem normpath_abs_comps (L : List Path) (hL : L ≠ [])
    (hfst : ∀ c, L.head? = some c → c ≠ [])
    (hslash : ∀ c ∈ L, '/' ∉ c) (hdd : ∀ c ∈ L, c ≠ ['.', '.']) :
    normpath ('/' :: List.intercalate ['/'] L) =
      '/' :: List.intercalate ['/']
        (L.filter (fun c => !(c == [] || c == ['.']))) := by
  obtain ⟨c₀, L', rfl⟩ := List.exists_cons_of_ne_nil hL
  have h0 : c₀ ≠ [] := hfst c₀ rfl
  obtain ⟨ch, ct, rfl⟩ := List.exists_cons_of_ne_nil h0
  have hch : ch ≠ '/' := by
    intro e
    exact hslash (ch :: ct) (by simp) (by simp [e])
  obtain ⟨r, hr⟩ : ∃ r, List.intercalate ['/'] ((ch :: ct) :: L') = ch :: r := by
    cases L' with
    | nil => exact ⟨ct, by simp [intercalate_single_comp]⟩
    | cons d L'' =>
      exact ⟨ct ++ '/' :: List.intercalate ['/'] (d :: L''),
        by rw [intercalate_cons_of_ne _ _ (by simp)]; simp⟩
  have hsplit : (('/' : Char) :: (ch :: r)).splitOn '/' =
      [] :: (ch :: ct) :: L' := by
    have hN : ('/' : Char) :: (ch :: r) =
        List.intercalate ['/'] ([] :: (ch :: ct) :: L') := by
      rw [intercalate_cons_of_ne [] _ (by simp), hr]; simp
    rw [hN]
    exact List.splitOn_intercalate ([] :: (ch :: ct) :: L') '/'
      (by
        intro l hl
        rcases List.mem_cons.mp hl with h1 | h1
        · simp [h1]
        · exact hslash l h1)
      (by simp)
  have hfold := foldl_normComp_all 1 ([] :: (ch :: ct) :: L') []
    (by
      intro q hq
      rcases List.mem_cons.mp hq with h1 | h1
      · simp [h1]
      · exact hdd q h1)
  rw [normpath, hr]
  rw [if_neg (by simp : ¬(('/' : Char) :: (ch :: r) = []))]
  have hcond : ¬((('/' : Char) :: (ch :: r)).take 2 = ['/', '/'] ∧
      (('/' : Char) :: (ch :: r)).take 3 ≠ ['/', '/', '/']) := by
    intro hco
    have hc2 := hco.1
    simp [List.take] at hc2
    exact hch hc2
  rw [if_pos (by simp : (('/' : Char) :: (ch :: r)).head? = some '/'),
    if_neg hcond, hsplit]
  simp only [hfold, List.nil_append]
  rw [List.filter_cons_of_neg (by simp)]
  have hrep : List.replicate 1 '/' = ['/'] := rfl
  rw [hrep, List.singleton_append, if_neg (by simp)]

/-- C10: for every discovered document `dir/file` (with slash-free
nonempty `dir` not starting with a dot, as the glob guarantees), the
`run_path` the driver passes to `execute` — `driverLoop` invokes
`execute` with `nb_dir cwd nbfn`, the value computed on line 46 — is the
absolute path of the document's own containing directory, `cwd/dir`, and
is different from the invocation directory `cwd` itself.  The invocation
directory is any absolute normalised path given by its components. -/
theorem C10_run_path_is_abs_notebook_dir (cs : List Path) (a b : Path)
    (hcs : ∀ c ∈ cs, c ≠ [] ∧ '/' ∉ c ∧ c ≠ ['.'] ∧ c ≠ ['.', '.'])
    (ha : a ≠ []) (haS : '/' ∉ a) (haD : a.head? ≠ some '.')
    (hb : '/' ∉ b) :
    nb_dir (cwdOfComps cs) (a ++ '/' :: b) = cwdOfComps (cs ++ [a]) ∧
    nb_dir (cwdOfComps cs) (a ++ '/' :: b) ≠ cwdOfComps cs := by
  have hsplit := os_path_split_dir_file a b ha haS hb
  have hjoin := os_path_join_dot_dir a ha haS
  have hane : a ≠ ['.'] := by
    intro e; rw [e] at haD; exact haD rfl
  have hadd : a ≠ ['.', '.'] := by
    intro e; rw [e] at haD; exact haD rfl
  have hmain : nb_dir (cwdOfComps cs) (a ++ '/' :: b) =
      cwdOfComps (cs ++ [a]) := by
    simp only [nb_dir, hsplit]
    rw [hjoin, os_path_abspath,
      if_neg (by simp : ¬(('.' :: '/' :: a).head? = some '/')),
      join_cwd_dot_dir cs a (fun c hc => ⟨(hcs c hc).1, (hcs c hc).2.1⟩),
      normpath_abs_comps (cs ++ [['.'], a]) (by simp)
        (by
          intro c hc
          cases cs with
          | nil =>
            simp at hc
            rw [← hc]; simp
          | cons d cs' =>
            simp at hc
            rw [← hc]
            exact (hcs d (by simp)).1)
        (by
          intro c hc
          rcases List.mem_append.mp hc with h1 | h1
          · exact (hcs c h1).2.1
          · rcases List.mem_cons.mp h1 with h2 | h2
            · simp [h2]
            · simp at h2
              simp [h2, haS])
        (by
          intro c hc
          rcases List.mem_append.mp hc with h1 | h1
          · exact (hcs c h1).2.2.2
          · rcases List.mem_cons.mp h1 with h2 | h2
            · simp [h2]
            · simp at h2
              rw [h2]; exact hadd)]
    have hfil : (cs ++ [['.'], a]).filter
        (fun c => !(c == [] || c == ['.'])) = cs ++ [a] := by
      rw [List.filter_append]
      have h1 : cs.filter (fun c => !(c == [] || c == ['.'])) = cs :=
        List.filter_eq_self.mpr (fun c hc => by
          simp [(hcs c hc).1, (hcs c hc).2.2.1])
      have h2 : ([['.'], a] : List Path).filter
          (fun c => !(c == [] || c == ['.'])) = [a] := by
        simp [ha, hane]
      rw [h1, h2]
    rw [hfil, cwdOfComps]
  refine ⟨hmain, ?_⟩
  rw [hmain]
  intro he
  have hlen : (List.intercalate ['/'] (cs ++ [a])).length =
      (List.intercalate ['/'] cs).length := by
    have := congrArg List.length he
    simpa [cwdOfComps] using this
  cases cs with
  | nil =>
    rw [List.nil_append, intercalate_single_comp] at hlen
    have : List.intercalate ['/'] ([] : List Path) = [] := by
      simp [List.intercalate]
    rw [this] at hlen
    simp at hlen
    exact ha hlen
  | cons c cs' =>
    rw [intercalate_concat_comp a _ (by simp)] at hlen
    simp at hlen

/-- C10 witness: from `/home/user`, the notebook `notebooks/demo.ipynb`
is executed with `run_path = /home/user/notebooks`. -/
theorem C10_witness :
    (∀ c ∈ [strL "home", strL "user"],
      c ≠ [] ∧ '/' ∉ c ∧ c ≠ ['.'] ∧ c ≠ ['.', '.']) ∧
    (nb_dir (cwdOfComps [strL "home", strL "user"])
        (strL "notebooks" ++ '/' :: strL "demo.ipynb") =
      cwdOfComps ([strL "home", strL "user"] ++ [strL "notebooks"]) ∧
    nb_dir (cwdOfComps [strL "home", strL "user"])
        (strL "notebooks" ++ '/' :: strL "demo.ipynb") ≠
      cwdOfComps [strL "home", strL "user"]) :=
  ⟨by decide,
    C10_run_path_is_abs_notebook_dir [strL "home", strL "user"]
      (strL "notebooks") (strL "demo.ipynb")
      (by decide) (by decide) (by decide) (by decide) (by decide)⟩

end RunNotebooks
